import Mathlib

/-!
Verification of the News_impact_analyzer pipeline.

The Python sources are shallowly embedded: dictionaries become structures
with `Option` fields (absent key = `none`), Python strings become `String`
(processed as `List Char`), the two regular expressions of the code are
embedded as explicit scanners, and code that can raise is modelled in
`Except`.  External collaborators (the ticker registry, the LLM providers,
`json.loads`) are parameters of the corresponding functions, matching the
spec's "external capability" treatment.
-/

/-- Python `\s` (ASCII fragment): the whitespace characters recognised by
`re.sub(r'\s...')` and `str.strip()` on ASCII text. -/
def isSpc (c : Char) : Bool :=
  c == ' ' || c == '\t' || c == '\n' || c == '\r' || c == '\x0b' || c == '\x0c'

/-- Python `\w` (ASCII fragment): letters, digits and underscore. -/
def isWordChar (c : Char) : Bool :=
  c.isAlpha || c.isDigit || c == '_'

/-- Helper for `stripMarker`: parses the reversed truncation marker
`\s*\[\+\d+\s*chars\]\s*` at the front of the reversed text.  Returns the
(reversed) remainder when the marker is present at the end of the original
text. -/
def parseMarkerRev (l : List Char) : Option (List Char) :=
  let l1 := l.dropWhile isSpc
  if l1.take 6 = ']' :: 's' :: 'r' :: 'a' :: 'h' :: 'c' :: [] then
    let l2 := (l1.drop 6).dropWhile isSpc
    match l2 with
    | [] => none
    | d :: _ =>
      if d.isDigit then
        match l2.dropWhile Char.isDigit with
        | '+' :: '[' :: l4 => some (l4.dropWhile isSpc)
        | _ => none
      else none
  else none

/-- Embedding of `re.sub(r'\s*\[\+\d+\s*chars\]\s*$', '', text)` from
`preprocessor.clean_article_content` (step 1): removes a trailing NewsAPI
truncation notice.  The pattern is anchored at the end of the string, so
the (leftmost) match, when it exists, is the suffix consisting of the
maximal whitespace run before the marker, the marker itself, and any
trailing whitespace; removal is modelled by parsing the reversed string. -/
def stripMarker (l : List Char) : List Char :=
  match parseMarkerRev l.reverse with
  | some rest => rest.reverse
  | none => l

/-- Embedding of `re.sub(r'\s+', ' ', text)` (step 2 of
`clean_article_content`): every maximal run of whitespace becomes a single
space.  The Boolean argument records whether the previous character was
whitespace (i.e. whether we are inside a run that has already emitted its
space). -/
def collapseAux (prevWs : Bool) : List Char → List Char
  | [] => []
  | c :: cs =>
    if isSpc c then
      if prevWs then collapseAux true cs else ' ' :: collapseAux true cs
    else c :: collapseAux false cs

/-- Step 2 of `clean_article_content`: collapse whitespace runs. -/
def collapseWs (l : List Char) : List Char := collapseAux false l

/-- Embedding of Python `str.strip()` (step 3 of `clean_article_content`):
drop leading and trailing whitespace. -/
def pystrip (l : List Char) : List Char :=
  ((l.dropWhile isSpc).reverse.dropWhile isSpc).reverse

/-- `preprocessor.clean_article_content` on character lists: remove the
trailing truncation marker, collapse whitespace, strip the ends. -/
def cleanChars (l : List Char) : List Char :=
  pystrip (collapseWs (stripMarker l))

/-- `preprocessor.clean_article_content`: the TextNormalizer of the spec. -/
def clean_article_content (s : String) : String :=
  String.mk (cleanChars s.toList)

example : clean_article_content "a [+1 chars] [+2 chars]" = "a [+1 chars]" := by decide
example : clean_article_content "a [+1 chars]" = "a" := by decide
example : clean_article_content "  hello \n world  [+123 chars]  " = "hello world" := by decide
example : clean_article_content "" = "" := by decide

/-! ## Data model

An article is a JSON object accumulating keys along the pipeline.  Absent
keys are `none`.  The `content` value may be a non-string JSON value
(`some none`), which `preprocess_articles` rejects with its `isinstance`
check.  The `analysis` value, when present, is the dictionary produced by
`json.loads` on a provider response, or the pipeline's
`{"error": str(e)}` object. -/

/-- The analysis dictionary attached to an article: the keys requested by
the prompt, plus the `error` key written by the pipeline's exception
handler.  Each field is `none` when the key is absent. -/
structure AnalysisDict where
  error : Option String
  sentiment : Option String
  confidence_score : Option Int
  affected_entities : Option (List (Option String))
  event_summary : Option String
  potential_impact : Option String
deriving DecidableEq, Repr

/-- Python truthiness of the analysis dictionary: `not analysis` is true
exactly for the empty dictionary. -/
def AnalysisDict.falsy (d : AnalysisDict) : Bool :=
  d.error.isNone && d.sentiment.isNone && d.confidence_score.isNone &&
    d.affected_entities.isNone && d.event_summary.isNone && d.potential_impact.isNone

/-- The `{"error": str(e)}` object written by `run_analysis_pipeline`
when the analyzer raises. -/
def errorDict (e : String) : AnalysisDict :=
  ⟨some e, none, none, none, none, none⟩

/-- An article record: the keys produced by the fetcher, by
`preprocess_articles` (`cleaned_content`) and by `run_analysis_pipeline`
(`analysis`).  An absent key is `none`; a `content` value that is present
but not a string is `some none`. -/
structure Article where
  title : String
  source : String
  url : String
  published_at : String
  content : Option (Option String)
  cleaned_content : Option String
  analysis : Option AnalysisDict
deriving DecidableEq, Repr

/-- `article['cleaned_content'] = c` as a functional update. -/
def Article.withCleaned (a : Article) (c : Option String) : Article :=
  ⟨a.title, a.source, a.url, a.published_at, a.content, c, a.analysis⟩

/-- `article['analysis'] = d` as a functional update. -/
def Article.withAnalysis (a : Article) (d : Option AnalysisDict) : Article :=
  ⟨a.title, a.source, a.url, a.published_at, a.content, a.cleaned_content, d⟩

/-! ## Module 2: preprocessing (`preprocessor.preprocess_articles`) -/

/-- `preprocessor.preprocess_articles`: skip an article whose `content` is
absent, falsy, or not a string (the `or` short-circuits, so a missing key
never reaches the `isinstance` check); clean the content; keep the article,
with `cleaned_content` added, only when the cleaned text is non-empty. -/
def preprocess_articles : List Article → List Article
  | [] => []
  | a :: rest =>
    match a.content with
    | some (some s) =>
      if s = "" then preprocess_articles rest
      else
        let cl := clean_article_content s
        if cl = "" then preprocess_articles rest
        else a.withCleaned (some cl) :: preprocess_articles rest
    | _ => preprocess_articles rest

/-- The spec's reading of the preprocessing filter (spec 4.3): keep exactly
the articles whose `content` is a present string that is non-empty after
normalization, attaching the normalized text as `cleaned_content`. -/
def preprocessSpec (l : List Article) : List Article :=
  l.filterMap fun a =>
    match a.content with
    | some (some s) =>
      if clean_article_content s = "" then none
      else some (a.withCleaned (some (clean_article_content s)))
    | _ => none

/-! ## Deduplication (`pipeline.run_fetch_pipeline`, lines 27-33) -/

/-- The deduplication loop of `run_fetch_pipeline`: keep an article when
its `url` has not been seen, then add the `url` to the seen set (modelled
as a list with membership lookup). -/
def dedupeAux (seen : List String) : List Article → List Article
  | [] => []
  | a :: rest =>
    if a.url ∈ seen then dedupeAux seen rest
    else a :: dedupeAux (a.url :: seen) rest

/-- The ArticleDeduplicator of the spec, as implemented by
`run_fetch_pipeline`: first occurrence per distinct `url`. -/
def dedupe (articles : List Article) : List Article := dedupeAux [] articles

/-- The spec's reading of deduplication (spec 4.2): keep the first
occurrence of each `url` and delete every later article sharing it. -/
def keepFirst : List Article → List Article
  | [] => []
  | a :: rest =>
    a :: keepFirst (rest.filter fun b => b.url ≠ a.url)
termination_by l => l.length
decreasing_by
  simp only [List.length_cons]
  exact Nat.lt_succ_of_le (List.length_filter_le _ _)

/-! ## The ticker pattern `\b[A-Z]{1,5}\b` (`dashboard.extract_valid_signals`) -/

/-- Embedding of `re.findall(r'\b[A-Z]{1,5}\b', s)`.  `prevW` records
whether the character before the current position is a word character
(`\b` holds exactly when `prevW` disagrees with the next character's
word-ness).  At a word boundary followed by an uppercase letter the
greedy `[A-Z]{1,5}\b` matches precisely when the maximal uppercase run
starting there has length at most 5 and is followed by a non-word
character or the end (shorter prefixes of the run always end inside a
word).  After a successful match `re.findall` resumes at the match end;
resuming character-by-character with `prevW = true` is equivalent, since
every position strictly inside a match has a word-character predecessor,
so no new match can begin there. -/
def scanTickers (prevW : Bool) : List Char → List (List Char)
  | [] => []
  | c :: cs =>
    if !prevW && c.isUpper then
      if ((c :: cs).takeWhile Char.isUpper).length ≤ 5 &&
          (((c :: cs).drop ((c :: cs).takeWhile Char.isUpper).length).head?).all
            (fun d => !isWordChar d) then
        (c :: cs).takeWhile Char.isUpper :: scanTickers true cs
      else scanTickers true cs
    else scanTickers (isWordChar c) cs

/-- `re.findall(r'\b[A-Z]{1,5}\b', s)` on a string: candidate tickers in a
free-text entity. -/
def findallTickers (s : String) : List String :=
  (scanTickers false s.toList).map String.mk

/-- The spec's wording of step 4 of SignalExtractor: enumerate every
maximal run of uppercase ASCII letters (`prev` is the preceding character,
if any; a run starts where the previous character is not uppercase), and
keep a run exactly when it has length 1 to 5 and is bounded by word
boundaries, i.e. its neighbours on both sides are non-word characters or
the string ends. -/
def specRuns (prev : Option Char) : List Char → List (List Char)
  | [] => []
  | c :: cs =>
    if c.isUpper && !(prev.any Char.isUpper) then
      (if !(prev.any isWordChar) && ((c :: cs).takeWhile Char.isUpper).length ≤ 5 &&
          (((c :: cs).drop ((c :: cs).takeWhile Char.isUpper).length).head?).all
            (fun d => !isWordChar d) then
        [(c :: cs).takeWhile Char.isUpper]
      else []) ++ specRuns (some c) cs
    else specRuns (some c) cs

/-- Spec-side candidate extraction on a string. -/
def specCandidates (s : String) : List String :=
  (specRuns none s.toList).map String.mk

example : findallTickers "AAPL and ABCDEF plus MSFT5 A_B C-D Ee FFF" = ["AAPL", "C", "D", "FFF"] := by decide
example : specCandidates "AAPL and ABCDEF plus MSFT5 A_B C-D Ee FFF" = ["AAPL", "C", "D", "FFF"] := by decide
example : findallTickers "(AAPL)" = ["AAPL"] := by decide
example : findallTickers "X AAPLx" = ["X"] := by decide

/-! ## SignalExtractor (`dashboard.extract_valid_signals`) -/

/-- The body of the article loop of `extract_valid_signals`: the signals
one article contributes.  `valid` is the external ticker registry
(`ticker in VALID_TICKERS`).  Mirrors the `continue` chain of the code:
skip when the analysis is absent or falsy or carries an `error` key; skip
when `analysis.get('confidence_score', 0)` is below the threshold; skip
unless the sentiment is `"Positive"` or `"Negative"`; then scan each
string entity (non-strings are skipped by the `isinstance` check) and keep
the registry-validated candidates. -/
def articleSignals (valid : String → Bool) (thr : Int) (a : Article) :
    List (String × String) :=
  match a.analysis with
  | none => []
  | some d =>
    if d.falsy || d.error.isSome then []
    else if d.confidence_score.getD 0 < thr then []
    else
      match d.sentiment with
      | none => []
      | some s =>
        if s = "Positive" || s = "Negative" then
          (d.affected_entities.getD []).flatMap fun ent =>
            match ent with
            | some str =>
              (findallTickers str).filterMap fun t =>
                if valid t then some (t, s) else none
            | none => []
        else []

/-- `dashboard.extract_valid_signals`: the signal list accumulated over
the articles, in article order. -/
def extract_valid_signals (valid : String → Bool) (articles : List Article)
    (thr : Int) : List (String × String) :=
  articles.flatMap (articleSignals valid thr)

/-! ## Spec-side analysis records (spec section 3, AnalysisResult) -/

/-- The spec's AnalysisResult variant: a Success carries all five fields
of the prompt, a Failure carries an error message. -/
inductive AnalysisResult where
  | success (sentiment : String) (affected_entities : List String)
      (event_summary : String) (potential_impact : String)
      (confidence_score : Int) : AnalysisResult
  | failure (error : String) : AnalysisResult
deriving DecidableEq, Repr

/-- The JSON object representing an AnalysisResult: a Success is the five
prompt fields flattened into an object, a Failure is `{"error": message}`
(spec section 6, persisted state). -/
def AnalysisResult.toDict : AnalysisResult → AnalysisDict
  | .success s ents ev imp conf =>
    ⟨none, some s, some conf, some (ents.map some), some ev, some imp⟩
  | .failure e => errorDict e

/-- An analyzed article in the spec's data model: article fields plus an
optional AnalysisResult. -/
structure SpecArticle where
  base : Article
  analysis : Option AnalysisResult
deriving DecidableEq, Repr

/-- The JSON article a SpecArticle denotes. -/
def SpecArticle.toArticle (a : SpecArticle) : Article :=
  a.base.withAnalysis (a.analysis.map AnalysisResult.toDict)

/-- The claim's description of SignalExtractor, written from the spec's
words over spec-level records: skip an absent or Failure analysis; skip
when the confidence score is strictly below the threshold; skip unless the
sentiment is Positive or Negative; for each entity string take the maximal
uppercase runs of length 1 to 5 bounded by word boundaries and keep the
registry-validated candidates with the article's sentiment, in article,
entity, candidate order. -/
def specArticleSignals (valid : String → Bool) (thr : Int) (a : SpecArticle) :
    List (String × String) :=
  match a.analysis with
  | none => []
  | some (.failure _) => []
  | some (.success s ents _ _ conf) =>
    if conf < thr then []
    else if s = "Positive" || s = "Negative" then
      ents.flatMap fun ent =>
        (specCandidates ent).filterMap fun t =>
          if valid t then some (t, s) else none
    else []

/-- The signals of a whole run in the claim's order: article order, then
entity order, then candidate order. -/
def extractSpec (valid : String → Bool) (thr : Int) (l : List SpecArticle) :
    List (String × String) :=
  l.flatMap (specArticleSignals valid thr)

/-! ## TickerScorer (`dashboard.score_tickers`) -/

/-- One entry of the scored-ticker dictionary:
`{'positive': p, 'negative': n, 'net_score': p - n}`. -/
structure Score where
  positive : Nat
  negative : Nat
  net_score : Int
deriving DecidableEq, Repr

/-- One `defaultdict` update of the accumulation loop of `score_tickers`:
increment the positive (`pos = true`) or negative counter of `t`,
creating the entry on first touch.  Insertion order is preserved, as in a
Python dict. -/
def bump : List (String × Nat × Nat) → String → Bool → List (String × Nat × Nat)
  | [], t, pos => [(t, if pos then 1 else 0, if pos then 0 else 1)]
  | (u, p, n) :: rest, t, pos =>
    if u = t then (u, if pos then p + 1 else p, if pos then n else n + 1) :: rest
    else (u, p, n) :: bump rest t pos

/-- The accumulation loop of `score_tickers`; a sentiment other than
`"Positive"` or `"Negative"` touches no counter (and creates no entry). -/
def scoreAux (acc : List (String × Nat × Nat)) :
    List (String × String) → List (String × Nat × Nat)
  | [] => acc
  | (t, s) :: rest =>
    if s = "Positive" then scoreAux (bump acc t true) rest
    else if s = "Negative" then scoreAux (bump acc t false) rest
    else scoreAux acc rest

/-- `dashboard.score_tickers`: accumulate per-ticker counts, then keep the
tickers whose `net_score = positive - negative` is non-zero.  The Python
dict is modelled as an association list in insertion order. -/
def score_tickers (signals : List (String × String)) : List (String × Score) :=
  (scoreAux [] signals).filterMap fun e =>
    let net : Int := (e.2.1 : Int) - (e.2.2 : Int)
    if net ≠ 0 then some (e.1, ⟨e.2.1, e.2.2, net⟩) else none

example : score_tickers [("AAPL", "Positive"), ("AAPL", "Positive"), ("AAPL", "Negative")] =
    [("AAPL", ⟨2, 1, 1⟩)] := by decide
example : score_tickers [("MSFT", "Positive"), ("MSFT", "Negative")] = [] := by decide

/-! ## RankedView (`dashboard.py`, lines 160-162) -/

/-- `bullish_df`: the scored entries with positive net score, sorted by
net score descending.  `pandas.sort_values` is modelled by a (stable)
merge sort; the tie order between equal net scores is a deterministic
function of the input, which is all the spec requires of it. -/
def rankBullish (scored : List (String × Score)) : List (String × Score) :=
  (scored.filter fun e => 0 < e.2.net_score).mergeSort
    fun a b => b.2.net_score ≤ a.2.net_score

/-- `bearish_df`: the scored entries with negative net score, sorted by
net score ascending. -/
def rankBearish (scored : List (String × Score)) : List (String × Score) :=
  (scored.filter fun e => e.2.net_score < 0).mergeSort
    fun a b => a.2.net_score ≤ b.2.net_score

/-! ## Analyzer models (`analyzer.py`) -/

/-- `analyzer.get_analyzer`'s result: which provider implementation was
constructed, with its credentials and model name. -/
inductive AnalyzerCfg where
  | ollama (model : String) : AnalyzerCfg
  | openai (key : String) (model : String) : AnalyzerCfg
  | gemini (key : String) (model : String) : AnalyzerCfg
deriving DecidableEq, Repr

/-- Python falsiness of an optional string argument (`not api_key`,
`model_name or default`): absent or empty. -/
def strFalsy : Option String → Bool
  | none => true
  | some s => s = ""

/-- `x or default` on an optional string argument. -/
def orDefault (x : Option String) (d : String) : String :=
  match x with
  | none => d
  | some s => if s = "" then d else s

/-- `analyzer.get_analyzer`: `Except.error` models the raised
`ValueError`.  Ollama needs no key; OpenAI and Google Gemini raise on a
falsy key; any other provider string raises. -/
def get_analyzer (provider : String) (api_key : Option String)
    (model_name : Option String) : Except String AnalyzerCfg :=
  if provider = "Ollama" then
    Except.ok (.ollama (orDefault model_name "llama3.1"))
  else if provider = "OpenAI" then
    if strFalsy api_key then Except.error "OpenAI API key is required."
    else Except.ok (.openai (api_key.getD "") (orDefault model_name "gpt-4o-mini"))
  else if provider = "Google Gemini" then
    if strFalsy api_key then Except.error "Google Gemini API key is required."
    else Except.ok (.gemini (api_key.getD "") (orDefault model_name "gemini-1.5-flash"))
  else Except.error ("Unknown LLM provider: " ++ provider)

/-- `OllamaAnalyzer.analyze`: the provider response is represented by its
`json.loads` outcome (`json.loads` is an external library call: `some d`
when the content parses to an object `d`, `none` when it is malformed).
The method returns the parsed dictionary and otherwise lets the
`JSONDecodeError` escape, modelled as `Except.error`. -/
def ollamaAnalyze (response : Option AnalysisDict) : Except String AnalysisDict :=
  match response with
  | some d => Except.ok d
  | none => Except.error "JSONDecodeError"

/-- `GeminiAnalyzer.analyze`: after the markdown cleanup the response text
is handed to `json.loads`; as for Ollama the response is represented by
its parse outcome and a parse failure escapes as an exception. -/
def geminiAnalyze (response : Option AnalysisDict) : Except String AnalysisDict :=
  match response with
  | some d => Except.ok d
  | none => Except.error "JSONDecodeError"

/-! ## Analysis pipeline (`pipeline.run_analysis_pipeline`) -/

/-- The `try/except` of the article loop of `run_analysis_pipeline`: the
oracle's value when `analyzer.analyze` returns, the `{"error": str(e)}`
object when it raises. -/
def foldOracle : Except String AnalysisDict → AnalysisDict
  | Except.ok d => d
  | Except.error e => errorDict e

/-- One iteration of the article loop: `analyzer.analyze` is called on
`article['cleaned_content']` inside the `try`, so a missing key raises a
`KeyError` that the same handler converts to an error object. -/
def tryAnalyze (oracle : String → Except String AnalysisDict) (a : Article) :
    AnalysisDict :=
  match a.cleaned_content with
  | none => errorDict "KeyError: cleaned_content"
  | some s => foldOracle (oracle s)

/-- The article loop of `run_analysis_pipeline`: every article is appended
to the output, annotated with its analysis or error object. -/
def analyzeLoop (oracle : String → Except String AnalysisDict) :
    List Article → List Article
  | [] => []
  | a :: rest => a.withAnalysis (some (tryAnalyze oracle a)) :: analyzeLoop oracle rest

/-- `pipeline.run_analysis_pipeline`.  `preprocessed` is the content of
`preprocessed_articles.json` (`none` when the file is missing); `oracle`
gives each constructed analyzer's behaviour on a cleaned text.  The first
component models the returned Boolean, the second the content written to
`analyzed_articles.json` (`none` when nothing is written). -/
def run_analysis_pipeline (provider : String) (api_key : Option String)
    (model_name : Option String) (preprocessed : Option (List Article))
    (oracle : AnalyzerCfg → String → Except String AnalysisDict) :
    Bool × Option (List Article) :=
  match preprocessed with
  | none => (false, none)
  | some articles =>
    match get_analyzer provider api_key model_name with
    | Except.error _ => (false, none)
    | Except.ok cfg => (true, some (analyzeLoop (oracle cfg) articles))

/-! ## Counting signals (for the TickerScorer specification) -/

/-- The number of signals for ticker `t` with sentiment `s` in a signal
list. -/
def cnt (t s : String) : List (String × String) → Nat
  | [] => 0
  | x :: rest => (if x.1 = t ∧ x.2 = s then 1 else 0) + cnt t s rest

/-- The net-score filter of `score_tickers` on one accumulated counter
pair: the retained `{'positive', 'negative', 'net_score'}` object when the
net score is non-zero, nothing otherwise. -/
def netEntry (pn : Nat × Nat) : Option Score :=
  if ((pn.1 : Int) - (pn.2 : Int)) ≠ 0 then
    some ⟨pn.1, pn.2, (pn.1 : Int) - (pn.2 : Int)⟩
  else none

/-- Whitespace-normal text: every whitespace character is a plain space
and no two adjacent characters are both whitespace.  This is the shape
`collapseWs` produces and is preserved by `pystrip`. -/
def SpacesNormal (l : List Char) : Prop :=
  (∀ c ∈ l, isSpc c = true → c = ' ') ∧
    l.Chain' fun a b => ¬(isSpc a = true ∧ isSpc b = true)

/-! ## Theorems -/

theorem dedupeAux_eq_keepFirst (l : List Article) :
    ∀ seen, dedupeAux seen l = keepFirst (l.filter fun b => b.url ∉ seen) := by
  induction l with
  | nil => intro seen; simp [dedupeAux, keepFirst]
  | cons a rest ih =>
    intro seen
    by_cases h : a.url ∈ seen
    · simp [dedupeAux, h, ih seen]
    · have hf : (a :: rest).filter (fun b => b.url ∉ seen) =
          a :: rest.filter (fun b => b.url ∉ seen) := by
        simp [List.filter_cons, h]
      rw [dedupeAux, if_neg h, hf, keepFirst.eq_def]
      simp only [List.filter_filter]
      rw [ih (a.url :: seen)]
      congr 1
      apply congrArg keepFirst
      apply List.filter_congr
      intro b _
      simp [List.mem_cons, not_or, Bool.decide_and]

theorem dedupeAux_not_seen (l : List Article) :
    ∀ seen a, a ∈ dedupeAux seen l → a.url ∉ seen := by
  induction l with
  | nil => intro seen a h; simp [dedupeAux] at h
  | cons b rest ih =>
    intro seen a h
    by_cases hb : b.url ∈ seen
    · rw [dedupeAux, if_pos hb] at h
      exact ih seen a h
    · rw [dedupeAux, if_neg hb] at h
      rcases List.mem_cons.mp h with h | h
      · subst h; exact hb
      · intro hc
        exact ih (b.url :: seen) a h (List.mem_cons_of_mem _ hc)

theorem dedupeAux_pairwise (l : List Article) :
    ∀ seen, List.Pairwise (fun a b => a.url ≠ b.url) (dedupeAux seen l) := by
  induction l with
  | nil => intro seen; simp [dedupeAux]
  | cons b rest ih =>
    intro seen
    by_cases hb : b.url ∈ seen
    · rw [dedupeAux, if_pos hb]; exact ih seen
    · rw [dedupeAux, if_neg hb]
      refine List.pairwise_cons.mpr ⟨?_, ih _⟩
      intro a ha
      have := dedupeAux_not_seen rest (b.url :: seen) a ha
      intro hc
      exact this (hc ▸ List.mem_cons_self _ _)

theorem dedupeAux_sublist (l : List Article) :
    ∀ seen, (dedupeAux seen l).Sublist l := by
  induction l with
  | nil => intro seen; simp [dedupeAux]
  | cons b rest ih =>
    intro seen
    by_cases hb : b.url ∈ seen
    · rw [dedupeAux, if_pos hb]; exact (ih seen).cons b
    · rw [dedupeAux, if_neg hb]; exact (ih _).cons₂ b

/-- C7: deduplication keeps exactly the first occurrence per distinct url:
the loop of `run_fetch_pipeline` computes the keep-first-delete-later
function of the spec, no two entries of its output share a url, and the
output is a sublist of the input (so every output entry appears in the
input and the relative order of first occurrences is preserved). -/
theorem dedupe_first_occurrence (l : List Article) :
    dedupe l = keepFirst l ∧
      List.Pairwise (fun a b => a.url ≠ b.url) (dedupe l) ∧
      (dedupe l).Sublist l := by
  refine ⟨?_, dedupeAux_pairwise l [], dedupeAux_sublist l []⟩
  have h := dedupeAux_eq_keepFirst l []
  simpa using h

theorem preprocess_eq_spec (l : List Article) :
    preprocess_articles l = preprocessSpec l := by
  induction l with
  | nil => simp [preprocess_articles, preprocessSpec]
  | cons a rest ih =>
    rw [preprocess_articles, preprocessSpec, List.filterMap_cons]
    match hc : a.content with
    | none => simpa [preprocessSpec] using ih
    | some none => simpa [preprocessSpec] using ih
    | some (some s) =>
      by_cases hs : s = ""
      · subst hs
        have : clean_article_content "" = "" := rfl
        simpa [this, preprocessSpec] using ih
      · by_cases hcl : clean_article_content s = ""
        · simp only [if_neg hs, hcl, if_pos rfl, if_pos hcl]
          simpa [preprocessSpec] using ih
        · simp only [if_neg hs, if_neg hcl]
          rw [ih, preprocessSpec]

/-- C8: preprocessing keeps exactly the articles whose `content` is a
present string that normalizes to non-empty text, silently excluding the
rest; each kept article gains a non-empty `cleaned_content` equal to the
normalizer applied to its content, and the output is never longer than
the input. -/
theorem preprocess_filters_empty (l : List Article) :
    preprocess_articles l = preprocessSpec l ∧
      (preprocess_articles l).length ≤ l.length ∧
      ∀ b ∈ preprocess_articles l, ∃ a s, a ∈ l ∧ a.content = some (some s) ∧
        clean_article_content s ≠ "" ∧
        b = a.withCleaned (some (clean_article_content s)) := by
  refine ⟨preprocess_eq_spec l, ?_, ?_⟩
  · rw [preprocess_eq_spec l]
    exact List.length_filterMap_le _ _
  · intro b hb
    rw [preprocess_eq_spec l, preprocessSpec] at hb
    rcases List.mem_filterMap.mp hb with ⟨a, ha, hfa⟩
    cases hc : a.content with
    | none => rw [hc] at hfa; exact absurd hfa (by simp)
    | some cv =>
      cases cv with
      | none => rw [hc] at hfa; exact absurd hfa (by simp)
      | some s =>
        rw [hc] at hfa
        replace hfa : (if clean_article_content s = "" then none
            else some (a.withCleaned (some (clean_article_content s)))) = some b := hfa
        by_cases hcl : clean_article_content s = ""
        · rw [if_pos hcl] at hfa; exact absurd hfa (by simp)
        · rw [if_neg hcl] at hfa
          exact ⟨a, s, ha, hc, hcl, (Option.some_inj.mp hfa).symm⟩

theorem lookup_bump (acc : List (String × Nat × Nat)) (t u : String) (pos : Bool) :
    List.lookup u (bump acc t pos) =
      if u = t then
        some (match List.lookup t acc with
          | some pn => if pos then (pn.1 + 1, pn.2) else (pn.1, pn.2 + 1)
          | none => if pos then (1, 0) else (0, 1))
      else List.lookup u acc := by
  induction acc with
  | nil =>
    by_cases h : u = t
    · subst h
      have hb : (u == u) = true := beq_self_eq_true u
      cases pos <;> simp [bump, List.lookup, hb]
    · have hb : (u == t) = false := beq_eq_false_iff_ne.mpr h
      simp [bump, List.lookup, hb, h]
  | cons hd rest ih =>
    obtain ⟨v, p, n⟩ := hd
    by_cases hvt : v = t
    · subst hvt
      by_cases hut : u = v
      · subst hut
        have hb : (u == u) = true := beq_self_eq_true u
        cases pos <;> simp [bump, List.lookup, hb]
      · have hb : (u == v) = false := beq_eq_false_iff_ne.mpr hut
        simp [bump, List.lookup, hb, hut]
    · by_cases huv : u = v
      · subst huv
        have hut : ¬u = t := hvt
        have hb : (u == u) = true := beq_self_eq_true u
        simp [bump, List.lookup, hvt, hut, hb]
      · have hb : (u == v) = false := beq_eq_false_iff_ne.mpr huv
        simp only [bump, if_neg hvt, List.lookup, hb]
        rw [ih]
        by_cases hut : u = t
        · subst hut
          have hb2 : (u == v) = false := hb
          have hb3 : (v == u) = false := beq_eq_false_iff_ne.mpr fun hx => hvt hx
          simp [List.lookup, hb2, hb3]
        · simp [hut]

theorem cnt_cons (t s u v : String) (rest : List (String × String)) :
    cnt t s ((u, v) :: rest) = (if u = t ∧ v = s then 1 else 0) + cnt t s rest := rfl


theorem lookup_bump_true (acc : List (String × Nat × Nat)) (t u : String) :
    List.lookup u (bump acc t true) =
      if u = t then
        some (match List.lookup t acc with
          | some pn => (pn.1 + 1, pn.2)
          | none => (1, 0))
      else List.lookup u acc := by
  rw [lookup_bump acc t u true]
  cases List.lookup t acc <;> simp

theorem lookup_bump_false (acc : List (String × Nat × Nat)) (t u : String) :
    List.lookup u (bump acc t false) =
      if u = t then
        some (match List.lookup t acc with
          | some pn => (pn.1, pn.2 + 1)
          | none => (0, 1))
      else List.lookup u acc := by
  rw [lookup_bump acc t u false]
  cases List.lookup t acc <;> simp

theorem lookup_scoreAux (sigs : List (String × String)) :
    ∀ acc t, List.lookup t (scoreAux acc sigs) =
      match List.lookup t acc with
      | some pn => some (pn.1 + cnt t "Positive" sigs, pn.2 + cnt t "Negative" sigs)
      | none =>
        if cnt t "Positive" sigs = 0 ∧ cnt t "Negative" sigs = 0 then none
        else some (cnt t "Positive" sigs, cnt t "Negative" sigs) := by
  induction sigs with
  | nil =>
    intro acc t
    cases h : List.lookup t acc <;> simp [scoreAux, cnt, h]
  | cons hd rest ih =>
    obtain ⟨u, s⟩ := hd
    intro acc t
    have hPN : ("Positive" : String) ≠ "Negative" := by decide
    by_cases hsp : s = "Positive"
    · subst hsp
      have hstep : scoreAux acc ((u, "Positive") :: rest) = scoreAux (bump acc u true) rest := by
        simp [scoreAux]
      rw [hstep, ih (bump acc u true) t, lookup_bump_true acc u t]
      by_cases htu : t = u
      · subst htu
        have hcP : cnt t "Positive" ((t, "Positive") :: rest) = 1 + cnt t "Positive" rest := by
          rw [cnt_cons, if_pos ⟨rfl, rfl⟩]
        have hcN : cnt t "Negative" ((t, "Positive") :: rest) = cnt t "Negative" rest := by
          rw [cnt_cons, if_neg fun h => hPN h.2, Nat.zero_add]
        rw [if_pos rfl, hcP, hcN]
        cases h : List.lookup t acc with
        | some pn => simp only [h, Nat.add_assoc]
        | none =>
          simp only [h]
          rw [if_neg (by omega)]
          simp
      · have hcP : cnt t "Positive" ((u, "Positive") :: rest) = cnt t "Positive" rest := by
          rw [cnt_cons, if_neg fun h => htu h.1.symm, Nat.zero_add]
        have hcN : cnt t "Negative" ((u, "Positive") :: rest) = cnt t "Negative" rest := by
          rw [cnt_cons, if_neg fun h => htu h.1.symm, Nat.zero_add]
        rw [if_neg htu, hcP, hcN]
    · by_cases hsn : s = "Negative"
      · subst hsn
        have hNP : ("Negative" : String) ≠ "Positive" := fun h => hPN h.symm
        have hstep : scoreAux acc ((u, "Negative") :: rest) = scoreAux (bump acc u false) rest := by
          simp [scoreAux, hNP]
        rw [hstep, ih (bump acc u false) t, lookup_bump_false acc u t]
        by_cases htu : t = u
        · subst htu
          have hcP : cnt t "Positive" ((t, "Negative") :: rest) = cnt t "Positive" rest := by
            have hne : ¬(t = t ∧ ("Negative" : String) = "Positive") := fun h => hPN h.2.symm
            rw [cnt_cons, if_neg hne, Nat.zero_add]
          have hcN : cnt t "Negative" ((t, "Negative") :: rest) = 1 + cnt t "Negative" rest := by
            rw [cnt_cons, if_pos ⟨rfl, rfl⟩]
          rw [if_pos rfl, hcP, hcN]
          cases h : List.lookup t acc with
          | some pn => simp only [h, Nat.add_assoc]
          | none =>
            simp only [h]
            rw [if_neg (by omega)]
            simp
        · have hcP : cnt t "Positive" ((u, "Negative") :: rest) = cnt t "Positive" rest := by
            rw [cnt_cons, if_neg fun h => htu h.1.symm, Nat.zero_add]
          have hcN : cnt t "Negative" ((u, "Negative") :: rest) = cnt t "Negative" rest := by
            rw [cnt_cons, if_neg fun h => htu h.1.symm, Nat.zero_add]
          rw [if_neg htu, hcP, hcN]
      · have hstep : scoreAux acc ((u, s) :: rest) = scoreAux acc rest := by
          simp [scoreAux, hsp, hsn]
        have hcP : cnt t "Positive" ((u, s) :: rest) = cnt t "Positive" rest := by
          rw [cnt_cons, if_neg fun h => hsp h.2, Nat.zero_add]
        have hcN : cnt t "Negative" ((u, s) :: rest) = cnt t "Negative" rest := by
          rw [cnt_cons, if_neg fun h => hsn h.2, Nat.zero_add]
        rw [hstep, ih acc t, hcP, hcN]

theorem mem_keys_bump (acc : List (String × Nat × Nat)) (t : String) (pos : Bool)
    (x : String) (hx : x ∈ (bump acc t pos).map Prod.fst) :
    x ∈ acc.map Prod.fst ∨ x = t := by
  induction acc with
  | nil =>
    right
    rw [bump] at hx
    simpa using hx
  | cons hd rest ih =>
    obtain ⟨v, p, n⟩ := hd
    by_cases hvt : v = t
    · rw [bump, if_pos hvt] at hx
      left
      simpa using hx
    · rw [bump, if_neg hvt, List.map_cons, List.mem_cons] at hx
      rcases hx with hx | hx
      · exact Or.inl (by rw [List.map_cons, List.mem_cons]; exact Or.inl hx)
      · rcases ih hx with h | h
        · exact Or.inl (by rw [List.map_cons, List.mem_cons]; exact Or.inr h)
        · exact Or.inr h

theorem keys_bump_nodup (acc : List (String × Nat × Nat)) (t : String) (pos : Bool)
    (h : (acc.map Prod.fst).Nodup) : ((bump acc t pos).map Prod.fst).Nodup := by
  induction acc with
  | nil => simp [bump]
  | cons hd rest ih =>
    obtain ⟨v, p, n⟩ := hd
    simp only [List.map_cons, List.nodup_cons] at h
    by_cases hvt : v = t
    · rw [bump, if_pos hvt]
      simp only [List.map_cons, List.nodup_cons]
      exact h
    · rw [bump, if_neg hvt]
      simp only [List.map_cons, List.nodup_cons]
      refine ⟨?_, ih h.2⟩
      intro hv
      rcases mem_keys_bump rest t pos v hv with hm | hm
      · exact h.1 hm
      · exact hvt hm

theorem keys_scoreAux_nodup (sigs : List (String × String)) :
    ∀ acc, (acc.map Prod.fst).Nodup → ((scoreAux acc sigs).map Prod.fst).Nodup := by
  induction sigs with
  | nil => intro acc h; simpa [scoreAux] using h
  | cons hd rest ih =>
    obtain ⟨u, s⟩ := hd
    intro acc h
    by_cases hsp : s = "Positive"
    · subst hsp
      have hstep : scoreAux acc ((u, "Positive") :: rest) = scoreAux (bump acc u true) rest := by
        simp [scoreAux]
      rw [hstep]
      exact ih _ (keys_bump_nodup acc u true h)
    · by_cases hsn : s = "Negative"
      · subst hsn
        have hNP : ("Negative" : String) ≠ "Positive" := by decide
        have hstep : scoreAux acc ((u, "Negative") :: rest) = scoreAux (bump acc u false) rest := by
          simp [scoreAux, hNP]
        rw [hstep]
        exact ih _ (keys_bump_nodup acc u false h)
      · have hstep : scoreAux acc ((u, s) :: rest) = scoreAux acc rest := by
          simp [scoreAux, hsp, hsn]
        rw [hstep]
        exact ih _ h

theorem lookup_none_of_not_mem_keys {β : Type} (l : List (String × β)) (t : String)
    (h : t ∉ l.map Prod.fst) : List.lookup t l = none := by
  induction l with
  | nil => rfl
  | cons hd rest ih =>
    obtain ⟨v, b⟩ := hd
    rw [List.map_cons, List.mem_cons, not_or] at h
    have hb : (t == v) = false := beq_eq_false_iff_ne.mpr h.1
    show List.lookup t ((v, b) :: rest) = none
    simp only [List.lookup, hb]
    exact ih h.2

theorem lookup_filterMap_keyed {β γ : Type} (g : β → Option γ) (l : List (String × β))
    (t : String) (hnd : (l.map Prod.fst).Nodup) :
    List.lookup t (l.filterMap fun e => (g e.2).map fun v => (e.1, v)) =
      (List.lookup t l).bind g := by
  induction l with
  | nil => rfl
  | cons hd rest ih =>
    obtain ⟨v, b⟩ := hd
    simp only [List.map_cons, List.nodup_cons] at hnd
    rw [List.filterMap_cons]
    by_cases htv : t = v
    · subst htv
      have hb : (t == t) = true := beq_self_eq_true t
      cases hg : g b with
      | some c =>
        show List.lookup t
            ((t, c) :: rest.filterMap fun e => (g e.2).map fun v => (e.1, v)) =
          (List.lookup t ((t, b) :: rest)).bind g
        simp only [List.lookup, hb]
        show some c = g b
        exact hg.symm
      | none =>
        show List.lookup t (rest.filterMap fun e => (g e.2).map fun v => (e.1, v)) =
          (List.lookup t ((t, b) :: rest)).bind g
        have hnone : List.lookup t (rest.filterMap fun e => (g e.2).map fun v => (e.1, v)) =
            none := by
          apply lookup_none_of_not_mem_keys
          intro hmem
          apply hnd.1
          rcases List.mem_map.mp hmem with ⟨e, he, hfst⟩
          rcases List.mem_filterMap.mp he with ⟨x, hx, hfx⟩
          cases hgx : g x.2 with
          | none => rw [hgx] at hfx; exact absurd hfx (by simp [Option.map])
          | some c =>
            rw [hgx] at hfx
            simp only [Option.map] at hfx
            have hex : e = (x.1, c) := (Option.some_inj.mp hfx).symm
            rw [← hfst, hex]
            exact List.mem_map.mpr ⟨x, hx, rfl⟩
        rw [hnone]
        simp only [List.lookup, hb]
        show (none : Option γ) = g b
        exact hg.symm
    · have hb : (t == v) = false := beq_eq_false_iff_ne.mpr htv
      cases hg : g b with
      | some c =>
        show List.lookup t
            ((v, c) :: rest.filterMap fun e => (g e.2).map fun v => (e.1, v)) =
          (List.lookup t ((v, b) :: rest)).bind g
        simp only [List.lookup, hb]
        exact ih hnd.2
      | none =>
        show List.lookup t (rest.filterMap fun e => (g e.2).map fun v => (e.1, v)) =
          (List.lookup t ((v, b) :: rest)).bind g
        simp only [List.lookup, hb]
        exact ih hnd.2

theorem keys_filterMap_keyed_sublist {β γ : Type} (g : β → Option γ)
    (l : List (String × β)) :
    ((l.filterMap fun e => (g e.2).map fun v => (e.1, v)).map Prod.fst).Sublist
      (l.map Prod.fst) := by
  induction l with
  | nil => simp
  | cons hd rest ih =>
    obtain ⟨v, b⟩ := hd
    rw [List.filterMap_cons]
    cases hg : g b with
    | none =>
      show ((rest.filterMap fun e => (g e.2).map fun v => (e.1, v)).map Prod.fst).Sublist
        (((v, b) :: rest).map Prod.fst)
      rw [List.map_cons]
      exact ih.cons v
    | some c =>
      show (((v, c) :: rest.filterMap fun e => (g e.2).map fun v => (e.1, v)).map
          Prod.fst).Sublist (((v, b) :: rest).map Prod.fst)
      rw [List.map_cons, List.map_cons]
      exact ih.cons₂ v

theorem score_tickers_keyed (signals : List (String × String)) :
    score_tickers signals =
      (scoreAux [] signals).filterMap fun e => (netEntry e.2).map fun v => (e.1, v) := by
  rw [score_tickers]
  congr 1
  funext e
  by_cases hc : ((e.2.1 : Int) - (e.2.2 : Int)) ≠ 0
  · rw [if_pos hc]
    rw [show netEntry e.2 = some ⟨e.2.1, e.2.2, (e.2.1 : Int) - (e.2.2 : Int)⟩ from by
      rw [netEntry, if_pos hc]]
    rfl
  · rw [if_neg hc]
    rw [show netEntry e.2 = none from by rw [netEntry, if_neg hc]]
    rfl

/-- C2: `score_tickers` returns a mapping (no duplicate ticker keys) whose
entry for any ticker `t` exists exactly when `t`'s positive and negative
signal counts differ, and then carries those counts and their difference
as `net_score`; tickers with no signals or with net score zero are
absent. -/
theorem score_tickers_counts (signals : List (String × String)) (t : String) :
    ((score_tickers signals).map Prod.fst).Nodup ∧
      List.lookup t (score_tickers signals) =
        (if ((cnt t "Positive" signals : Int) - (cnt t "Negative" signals : Int)) ≠ 0 then
          some ⟨cnt t "Positive" signals, cnt t "Negative" signals,
            (cnt t "Positive" signals : Int) - (cnt t "Negative" signals : Int)⟩
        else none) := by
  have hnd : ((scoreAux [] signals).map Prod.fst).Nodup :=
    keys_scoreAux_nodup signals [] (by simp)
  constructor
  · rw [score_tickers_keyed]
    exact (keys_filterMap_keyed_sublist netEntry (scoreAux [] signals)).nodup hnd
  · rw [score_tickers_keyed, lookup_filterMap_keyed netEntry _ t hnd,
      lookup_scoreAux signals [] t]
    by_cases h0 : cnt t "Positive" signals = 0 ∧ cnt t "Negative" signals = 0
    · show (if cnt t "Positive" signals = 0 ∧ cnt t "Negative" signals = 0 then
          (none : Option (Nat × Nat))
        else some (cnt t "Positive" signals, cnt t "Negative" signals)).bind netEntry = _
      rw [if_pos h0, h0.1, h0.2]
      simp
    · show (if cnt t "Positive" signals = 0 ∧ cnt t "Negative" signals = 0 then
          (none : Option (Nat × Nat))
        else some (cnt t "Positive" signals, cnt t "Negative" signals)).bind netEntry = _
      rw [if_neg h0]
      show netEntry (cnt t "Positive" signals, cnt t "Negative" signals) = _
      rw [netEntry]

/-- C5: per-article failure isolation in `run_analysis_pipeline`.  The
article loop produces one output entry per input article, in input order,
and the entry at any position is exactly the input article at that
position extended with an `analysis` key holding the oracle's result, or
the `{"error": message}` object when the oracle raises (`tryAnalyze`);
in particular an oracle failure on one article leaves every other
article's entry unchanged. -/
theorem analyzeLoop_isolation (oracle : String → Except String AnalysisDict)
    (articles : List Article) (i : Nat) :
    (analyzeLoop oracle articles).length = articles.length ∧
      (analyzeLoop oracle articles).get? i =
        (articles.get? i).map fun a => a.withAnalysis (some (tryAnalyze oracle a)) := by
  constructor
  · induction articles with
    | nil => rfl
    | cons a rest ih => simp [analyzeLoop, ih]
  · induction articles generalizing i with
    | nil => cases i <;> rfl
    | cons a rest ih =>
      cases i with
      | zero => rfl
      | succ j =>
        show (analyzeLoop oracle rest).get? j = (rest.get? j).map _
        exact ih j

/-- C6: a configuration error is fatal at startup.  `get_analyzer` raises
`ValueError` exactly when the provider is OpenAI or Google Gemini with a
missing (absent or empty) api key, or the provider string is unknown; and
whenever it raises, `run_analysis_pipeline` returns `False` without
analyzing any article and without writing the analyzed-articles file,
whatever the oracle would have produced. -/
theorem get_analyzer_config_error (provider : String) (api_key : Option String)
    (model_name : Option String) :
    ((∃ e, get_analyzer provider api_key model_name = Except.error e) ↔
      (((provider = "OpenAI" ∨ provider = "Google Gemini") ∧ strFalsy api_key = true) ∨
        (provider ≠ "Ollama" ∧ provider ≠ "OpenAI" ∧ provider ≠ "Google Gemini"))) ∧
      (∀ e preprocessed oracle,
        get_analyzer provider api_key model_name = Except.error e →
          run_analysis_pipeline provider api_key model_name preprocessed oracle =
            (false, none)) := by
  constructor
  · constructor
    · rintro ⟨e, he⟩
      rw [get_analyzer] at he
      by_cases h1 : provider = "Ollama"
      · rw [if_pos h1] at he; exact absurd he (by simp)
      · rw [if_neg h1] at he
        by_cases h2 : provider = "OpenAI"
        · rw [if_pos h2] at he
          by_cases hk : strFalsy api_key = true
          · exact Or.inl ⟨Or.inl h2, hk⟩
          · rw [if_neg (by simpa using hk)] at he; exact absurd he (by simp)
        · rw [if_neg h2] at he
          by_cases h3 : provider = "Google Gemini"
          · rw [if_pos h3] at he
            by_cases hk : strFalsy api_key = true
            · exact Or.inl ⟨Or.inr h3, hk⟩
            · rw [if_neg (by simpa using hk)] at he; exact absurd he (by simp)
          · exact Or.inr ⟨h1, h2, h3⟩
    · intro h
      rw [get_analyzer]
      rcases h with ⟨hp, hk⟩ | ⟨h1, h2, h3⟩
      · rcases hp with hp | hp
        · subst hp
          rw [if_neg (by decide), if_pos rfl, if_pos hk]
          exact ⟨_, rfl⟩
        · subst hp
          rw [if_neg (by decide), if_neg (by decide), if_pos rfl, if_pos hk]
          exact ⟨_, rfl⟩
      · rw [if_neg h1, if_neg h2, if_neg h3]
        exact ⟨_, rfl⟩
  · intro e preprocessed oracle he
    cases preprocessed with
    | none => rfl
    | some arts =>
      show (match get_analyzer provider api_key model_name with
        | Except.error _ => (false, none)
        | Except.ok cfg => (true, some (analyzeLoop (oracle cfg) arts))) = (false, none)
      rw [he]

/-- C4 counterexample: the claim that `analyze` itself never raises fails
on the code.  `OllamaAnalyzer.analyze` calls `json.loads` on the provider
response with no exception handler, so on an unparseable response
(modelled as parse outcome `none`) the call raises instead of returning
an AnalysisResult value. -/
theorem ollamaAnalyze_raises :
    ¬∃ d, ollamaAnalyze none = Except.ok d := by
  rintro ⟨d, h⟩
  exact absurd h (by simp [ollamaAnalyze])

/-- C4 (amended): `analyze` returns the parsed analysis object when the
provider response parses, and raises otherwise (for both the Ollama and
the Gemini analyzer); the enclosing `try/except` of
`run_analysis_pipeline` (`foldOracle`) is what converts that exception
into the Failure object `{"error": message}`, so the pipeline, not
`analyze`, guarantees a well-formed result for every response. -/
theorem analyze_fold_total (response : Option AnalysisDict) :
    ((∃ d, ollamaAnalyze response = Except.ok d ∧
        foldOracle (ollamaAnalyze response) = d) ∨
      (∃ e, ollamaAnalyze response = Except.error e ∧
        foldOracle (ollamaAnalyze response) = errorDict e)) ∧
    ((∃ d, geminiAnalyze response = Except.ok d ∧
        foldOracle (geminiAnalyze response) = d) ∨
      (∃ e, geminiAnalyze response = Except.error e ∧
        foldOracle (geminiAnalyze response) = errorDict e)) := by
  cases response with
  | some d => exact ⟨Or.inl ⟨d, rfl, rfl⟩, Or.inl ⟨d, rfl, rfl⟩⟩
  | none =>
    exact ⟨Or.inr ⟨"JSONDecodeError", rfl, rfl⟩, Or.inr ⟨"JSONDecodeError", rfl, rfl⟩⟩

/-- C10: an article whose analysis dictionary has no `error` key but also
no `confidence_score` key is treated as having confidence 0
(`analysis.get('confidence_score', 0)`), so for any threshold of at least
1 it contributes no signals, whatever its sentiment and entities: removing
it from the input leaves `extract_valid_signals` unchanged. -/
theorem missing_confidence_no_signals (valid : String → Bool) (thr : Int)
    (a : Article) (rest : List Article) (d : AnalysisDict)
    (ha : a.analysis = some d) (herr : d.error = none)
    (hconf : d.confidence_score = none) (hthr : 1 ≤ thr) :
    extract_valid_signals valid (a :: rest) thr =
      extract_valid_signals valid rest thr := by
  have hlt : (0 : Int) < thr := by omega
  have hsig : articleSignals valid thr a = [] := by
    by_cases hf : d.falsy = true
    · simp [articleSignals, ha, hf]
    · simp [articleSignals, ha, hf, herr, hconf, hlt]
  show (a :: rest).flatMap (articleSignals valid thr) =
    rest.flatMap (articleSignals valid thr)
  rw [List.flatMap_cons, hsig, List.nil_append]

/-- C10 witness: a concrete Success-shaped analysis lacking
`confidence_score`, with a registry-valid entity and Positive sentiment,
contributes nothing at threshold 3. -/
theorem missing_confidence_no_signals_witness :
    extract_valid_signals (fun s => s == "AAPL")
        (⟨"t", "s", "u", "p", none, none,
          some ⟨none, some "Positive", none, some [some "AAPL"], some "e", some "i"⟩⟩ :: [])
        3 =
      extract_valid_signals (fun s => s == "AAPL") [] 3 :=
  missing_confidence_no_signals (fun s => s == "AAPL") 3
    ⟨"t", "s", "u", "p", none, none,
      some ⟨none, some "Positive", none, some [some "AAPL"], some "e", some "i"⟩⟩ []
    ⟨none, some "Positive", none, some [some "AAPL"], some "e", some "i"⟩
    rfl rfl rfl (by decide)

/-- C9: given scored tickers all of non-zero net score, `bullish_df`
contains exactly the entries with positive net score sorted by net score
descending, `bearish_df` exactly those with negative net score sorted
ascending (ties broken deterministically — the ranking is a function of
its input), and every entry lands in exactly one of the two lists. -/
theorem rank_partition (scored : List (String × Score))
    (h : ∀ e ∈ scored, e.2.net_score ≠ 0) :
    List.Pairwise (fun a b => b.2.net_score ≤ a.2.net_score) (rankBullish scored) ∧
      List.Pairwise (fun a b => a.2.net_score ≤ b.2.net_score) (rankBearish scored) ∧
      (∀ e, e ∈ rankBullish scored ↔ e ∈ scored ∧ 0 < e.2.net_score) ∧
      (∀ e, e ∈ rankBearish scored ↔ e ∈ scored ∧ e.2.net_score < 0) ∧
      ∀ e ∈ scored,
        (e ∈ rankBullish scored ∧ e ∉ rankBearish scored) ∨
          (e ∈ rankBearish scored ∧ e ∉ rankBullish scored) := by
  have hmemB : ∀ e, e ∈ rankBullish scored ↔ e ∈ scored ∧ 0 < e.2.net_score := by
    intro e
    rw [rankBullish, List.mem_mergeSort, List.mem_filter]
    simp
  have hmemR : ∀ e, e ∈ rankBearish scored ↔ e ∈ scored ∧ e.2.net_score < 0 := by
    intro e
    rw [rankBearish, List.mem_mergeSort, List.mem_filter]
    simp
  refine ⟨?_, ?_, hmemB, hmemR, ?_⟩
  · have hs := @List.sorted_mergeSort (String × Score)
      (fun a b => decide (b.2.net_score ≤ a.2.net_score))
      (fun a b c hab hbc => by
        rw [decide_eq_true_eq] at hab hbc ⊢
        omega)
      (fun a b => by
        rw [Bool.or_eq_true, decide_eq_true_eq, decide_eq_true_eq]
        omega)
      (scored.filter fun e => 0 < e.2.net_score)
    exact hs.imp fun hab => by rw [decide_eq_true_eq] at hab; exact hab
  · have hs := @List.sorted_mergeSort (String × Score)
      (fun a b => decide (a.2.net_score ≤ b.2.net_score))
      (fun a b c hab hbc => by
        rw [decide_eq_true_eq] at hab hbc ⊢
        omega)
      (fun a b => by
        rw [Bool.or_eq_true, decide_eq_true_eq, decide_eq_true_eq]
        omega)
      (scored.filter fun e => e.2.net_score < 0)
    exact hs.imp fun hab => by rw [decide_eq_true_eq] at hab; exact hab
  · intro e he
    rcases lt_or_gt_of_ne (h e he) with hneg | hpos
    · right
      refine ⟨(hmemR e).mpr ⟨he, hneg⟩, ?_⟩
      intro hmem
      exact absurd ((hmemB e).mp hmem).2 (by omega)
    · left
      refine ⟨(hmemB e).mpr ⟨he, hpos⟩, ?_⟩
      intro hmem
      exact absurd ((hmemR e).mp hmem).2 (by omega)

/-- C9 witness: the spec's example `A: net 3, B: net -2, C: net 1` —
every entry has non-zero net score and the ranked view partitions and
orders them. -/
theorem rank_partition_witness :
    (∀ e ∈ [("A", (⟨3, 0, 3⟩ : Score)), ("B", ⟨0, 2, -2⟩), ("C", ⟨1, 0, 1⟩)],
        e.2.net_score ≠ 0) ∧
      ("A", (⟨3, 0, 3⟩ : Score)) ∈
        rankBullish [("A", ⟨3, 0, 3⟩), ("B", ⟨0, 2, -2⟩), ("C", ⟨1, 0, 1⟩)] := by
  have h : ∀ e ∈ [("A", (⟨3, 0, 3⟩ : Score)), ("B", ⟨0, 2, -2⟩), ("C", ⟨1, 0, 1⟩)],
      e.2.net_score ≠ 0 := by decide
  refine ⟨h, ?_⟩
  have hr := rank_partition [("A", ⟨3, 0, 3⟩), ("B", ⟨0, 2, -2⟩), ("C", ⟨1, 0, 1⟩)] h
  exact (hr.2.2.1 ("A", ⟨3, 0, 3⟩)).mpr ⟨by decide, by decide⟩

theorem upper_isWordChar (c : Char) (h : c.isUpper = true) : isWordChar c = true := by
  simp [isWordChar, Char.isAlpha, h]

theorem any_upper_any_word (prev : Option Char) (h : prev.any Char.isUpper = true) :
    prev.any isWordChar = true := by
  cases prev with
  | none => simp at h
  | some c =>
    simp only [Option.any_some] at h ⊢
    exact upper_isWordChar c h

theorem scan_eq_specRuns (l : List Char) :
    ∀ prev : Option Char, scanTickers (prev.any isWordChar) l = specRuns prev l := by
  induction l with
  | nil => intro prev; rfl
  | cons c cs ih =>
    intro prev
    by_cases hu : c.isUpper = true
    · have hw : isWordChar c = true := upper_isWordChar c hu
      have ihc' : scanTickers true cs = specRuns (some c) cs := by
        have h := ih (some c)
        rw [Option.any_some, hw] at h
        exact h
      by_cases hpw : prev.any isWordChar = true
      · have hscan : scanTickers (prev.any isWordChar) (c :: cs) = scanTickers true cs := by
          rw [hpw]
          show scanTickers (isWordChar c) cs = scanTickers true cs
          rw [hw]
        rw [hscan, ihc']
        by_cases hpu : (c.isUpper && !(prev.any Char.isUpper)) = true
        · rw [specRuns, if_pos hpu]
          have hnot : (!(prev.any isWordChar)) = false := by rw [hpw]; rfl
          simp [hnot]
        · rw [specRuns, if_neg hpu]
      · have hpwf : prev.any isWordChar = false := by
          cases hx : prev.any isWordChar
          · rfl
          · exact absurd hx hpw
        have hpuf : prev.any Char.isUpper = false := by
          cases hx : prev.any Char.isUpper
          · rfl
          · exact absurd (any_upper_any_word prev hx) hpw
        rw [hpwf, scanTickers, specRuns]
        rw [if_pos (show (!false && c.isUpper) = true by rw [hu]; rfl)]
        rw [if_pos (show (c.isUpper && !(prev.any Char.isUpper)) = true by
          rw [hu, hpuf]; rfl)]
        rw [hpwf]
        have hnf : ((!false : Bool)) = true := rfl
        rw [hnf, Bool.true_and]
        by_cases hrun : (decide (((c :: cs).takeWhile Char.isUpper).length ≤ 5) &&
            (((c :: cs).drop ((c :: cs).takeWhile Char.isUpper).length).head?).all
              (fun d => !isWordChar d)) = true
        · rw [if_pos hrun, if_pos hrun, ihc']
          rfl
        · rw [if_neg hrun, if_neg hrun, ihc', List.nil_append]
    · have huf : c.isUpper = false := by
        cases hx : c.isUpper
        · rfl
        · exact absurd hx hu
      have hs1 : scanTickers (prev.any isWordChar) (c :: cs) =
          scanTickers (isWordChar c) cs := by
        rw [scanTickers, if_neg (by rw [huf, Bool.and_false]; exact Bool.false_ne_true)]
      have hs2 : specRuns prev (c :: cs) = specRuns (some c) cs := by
        rw [specRuns, if_neg (by rw [huf, Bool.false_and]; exact Bool.false_ne_true)]
      rw [hs1, hs2]
      exact ih (some c)

theorem findall_eq_specCandidates (s : String) : findallTickers s = specCandidates s := by
  rw [findallTickers, specCandidates]
  have h := scan_eq_specRuns s.toList none
  rw [show (Option.any isWordChar none) = false from rfl] at h
  rw [h]

theorem articleSignals_toArticle (valid : String → Bool) (thr : Int) (sa : SpecArticle) :
    articleSignals valid thr sa.toArticle = specArticleSignals valid thr sa := by
  obtain ⟨base, ana⟩ := sa
  cases ana with
  | none => rfl
  | some r =>
    cases r with
    | failure e => rfl
    | success s ents ev imp conf =>
      by_cases hc : conf < thr
      · simp [articleSignals, specArticleSignals, SpecArticle.toArticle,
          Article.withAnalysis, AnalysisResult.toDict, AnalysisDict.falsy, hc]
      · by_cases hs2 : (s = "Positive" ∨ s = "Negative")
        · simp [articleSignals, specArticleSignals, SpecArticle.toArticle,
            Article.withAnalysis, AnalysisResult.toDict, AnalysisDict.falsy, hc, hs2,
            findall_eq_specCandidates, List.flatMap_map]
        · simp [articleSignals, specArticleSignals, SpecArticle.toArticle,
            Article.withAnalysis, AnalysisResult.toDict, AnalysisDict.falsy, hc, hs2]

/-- C1: for well-formed analysis records (the spec's AnalysisResult data
model) and any confidence threshold in 1..5, `extract_valid_signals`
returns exactly the signals described by the spec: skip absent or Failure
analyses, skip below-threshold confidence (equality passes), skip
sentiments other than Positive/Negative, then extract from each entity
string the maximal uppercase runs of length 1-5 bounded by word
boundaries and keep the registry-validated candidates, in article, then
entity, then candidate order. -/
theorem extract_valid_signals_spec (valid : String → Bool) (thr : Int)
    (l : List SpecArticle) (h1 : 1 ≤ thr) (h5 : thr ≤ 5) :
    extract_valid_signals valid (l.map SpecArticle.toArticle) thr =
      extractSpec valid thr l := by
  rw [extract_valid_signals, extractSpec]
  induction l with
  | nil => rfl
  | cons sa rest ih =>
    rw [List.map_cons, List.flatMap_cons, List.flatMap_cons, ih,
      articleSignals_toArticle]

/-- C1 witness: the spec's own example — a Positive analysis with
confidence 4 and entity "AAPL surges", threshold 3, registry containing
only AAPL — where the code and the spec description agree (and both
produce exactly `[("AAPL", "Positive")]`). -/
theorem extract_valid_signals_spec_witness :
    (1 : Int) ≤ 3 ∧ (3 : Int) ≤ 5 ∧
      extract_valid_signals (fun s => s == "AAPL")
          ([⟨⟨"t", "s", "u", "p", none, none, none⟩,
            some (.success "Positive" ["AAPL surges"] "e" "i" 4)⟩].map
            SpecArticle.toArticle) 3 =
        extractSpec (fun s => s == "AAPL") 3
          [⟨⟨"t", "s", "u", "p", none, none, none⟩,
            some (.success "Positive" ["AAPL surges"] "e" "i" 4)⟩] :=
  ⟨by decide, by decide,
    extract_valid_signals_spec (fun s => s == "AAPL") 3
      [⟨⟨"t", "s", "u", "p", none, none, none⟩,
        some (.success "Positive" ["AAPL surges"] "e" "i" 4)⟩]
      (by decide) (by decide)⟩

example : extract_valid_signals (fun s => s == "AAPL")
    [⟨"t", "s", "u", "p", none, none,
      some ⟨none, some "Positive", some 4, some [some "AAPL surges"], none, none⟩⟩] 3 =
    [("AAPL", "Positive")] := by decide

example : extract_valid_signals (fun s => s == "AAPL")
    [⟨"t", "s", "u", "p", none, none,
      some ⟨none, some "Positive", some 4, some [some "AAPL surges"], none, none⟩⟩] 5 =
    [] := by decide

example : extract_valid_signals (fun s => s == "AAPL")
    [⟨"t", "s", "u", "p", none, none,
      some ⟨none, some "Positive", some 4, some [some "XYZQQ sector"], none, none⟩⟩] 3 =
    [] := by decide

/-- C3 counterexample: the normalizer is not idempotent.  The end-anchored
marker regex removes only the last truncation marker, so a text ending in
two stacked markers loses one per application:
`"a [+1 chars] [+2 chars]"` cleans to `"a [+1 chars]"`, which cleans
again to `"a"`. -/
theorem clean_not_idempotent :
    clean_article_content (clean_article_content "a [+1 chars] [+2 chars]") ≠
      clean_article_content "a [+1 chars] [+2 chars]" := by decide

theorem head_collapseAux_true (l : List Char) :
    ∀ c ∈ (collapseAux true l).head?, isSpc c = false := by
  induction l with
  | nil => intro c hc; exact absurd hc (by simp [collapseAux])
  | cons d ds ih =>
    intro c hc
    by_cases hd : isSpc d = true
    · rw [collapseAux, if_pos hd, if_pos rfl] at hc
      exact ih c hc
    · have hdf : isSpc d = false := by
        cases hx : isSpc d
        · rfl
        · exact absurd hx hd
      rw [collapseAux, if_neg (by rw [hdf]; exact Bool.false_ne_true)] at hc
      simp at hc
      rw [← hc]
      exact hdf

theorem spacesNormal_collapseAux (l : List Char) :
    ∀ b, SpacesNormal (collapseAux b l) := by
  induction l with
  | nil =>
    intro b
    show SpacesNormal []
    exact ⟨fun c hc => absurd hc (List.not_mem_nil c), List.chain'_nil⟩
  | cons d ds ih =>
    intro b
    by_cases hd : isSpc d = true
    · cases b with
      | true =>
        rw [collapseAux, if_pos hd, if_pos rfl]
        exact ih true
      | false =>
        rw [collapseAux, if_pos hd, if_neg Bool.false_ne_true]
        constructor
        · intro c hc hsc
          rcases List.mem_cons.mp hc with h | h
          · exact h
          · exact (ih true).1 c h hsc
        · rw [List.chain'_cons']
          refine ⟨?_, (ih true).2⟩
          intro y hy
          intro hcon
          rw [head_collapseAux_true ds y hy] at hcon
          exact Bool.false_ne_true hcon.2
    · have hdf : isSpc d = false := by
        cases hx : isSpc d
        · rfl
        · exact absurd hx hd
      rw [collapseAux, if_neg (by rw [hdf]; exact Bool.false_ne_true)]
      constructor
      · intro c hc hsc
        rcases List.mem_cons.mp hc with h | h
        · rw [h] at hsc; exact absurd hsc hd
        · exact (ih false).1 c h hsc
      · rw [List.chain'_cons']
        refine ⟨?_, (ih false).2⟩
        intro y hy hcon
        rw [hdf] at hcon
        exact Bool.false_ne_true hcon.1

theorem spacesNormal_tail (c : Char) (cs : List Char)
    (h : SpacesNormal (c :: cs)) : SpacesNormal cs :=
  ⟨fun d hd hsd => h.1 d (List.mem_cons_of_mem c hd) hsd, h.2.tail⟩

theorem spacesNormal_dropWhile (p : Char → Bool) (l : List Char)
    (h : SpacesNormal l) : SpacesNormal (l.dropWhile p) := by
  induction l with
  | nil => exact h
  | cons c cs ih =>
    rw [List.dropWhile_cons]
    by_cases hp : p c = true
    · rw [if_pos hp]
      exact ih (spacesNormal_tail c cs h)
    · rw [if_neg hp]
      exact h

theorem spacesNormal_reverse (l : List Char) (h : SpacesNormal l) :
    SpacesNormal l.reverse := by
  constructor
  · intro c hc hsc
    exact h.1 c (List.mem_reverse.mp hc) hsc
  · rw [List.chain'_reverse]
    exact h.2.imp fun a b hab hcon => hab ⟨hcon.2, hcon.1⟩

theorem collapseAux_fix (l : List Char) (h : SpacesNormal l) :
    collapseAux false l = l ∧
      ((∀ c ∈ l.head?, isSpc c = false) → collapseAux true l = l) := by
  induction l with
  | nil => exact ⟨rfl, fun _ => rfl⟩
  | cons c cs ih =>
    have htail := ih (spacesNormal_tail c cs h)
    constructor
    · by_cases hc : isSpc c = true
      · have hsp : c = ' ' := h.1 c (List.mem_cons_self c cs) hc
        rw [collapseAux, if_pos hc, if_neg Bool.false_ne_true]
        have hhd : ∀ d ∈ cs.head?, isSpc d = false := by
          intro d hd
          have hR := (List.chain'_cons'.mp h.2).1 d hd
          cases hx : isSpc d
          · rfl
          · exact absurd ⟨hc, hx⟩ hR
        rw [htail.2 hhd, hsp]
      · have hcf : isSpc c = false := by
          cases hx : isSpc c
          · rfl
          · exact absurd hx hc
        rw [collapseAux, if_neg (by rw [hcf]; exact Bool.false_ne_true), htail.1]
    · intro hhd
      have hcf : isSpc c = false := hhd c (by simp)
      rw [collapseAux, if_neg (by rw [hcf]; exact Bool.false_ne_true), htail.1]

theorem dropWhile_of_head (p : Char → Bool) (l : List Char)
    (h : ∀ c ∈ l.head?, p c = false) : l.dropWhile p = l := by
  cases l with
  | nil => rfl
  | cons c cs =>
    rw [List.dropWhile_cons, if_neg (by rw [h c (by simp)]; exact Bool.false_ne_true)]

theorem pystrip_fix (l : List Char) (hh : ∀ c ∈ l.head?, isSpc c = false)
    (hl : ∀ c ∈ l.getLast?, isSpc c = false) : pystrip l = l := by
  rw [pystrip, dropWhile_of_head isSpc l hh]
  rw [dropWhile_of_head isSpc l.reverse (by rw [List.head?_reverse]; exact hl)]
  exact List.reverse_reverse l

theorem head_dropWhile (p : Char → Bool) (l : List Char) :
    ∀ c ∈ (l.dropWhile p).head?, p c = false := by
  induction l with
  | nil => intro c hc; simp at hc
  | cons d ds ih =>
    intro c hc
    rw [List.dropWhile_cons] at hc
    by_cases hp : p d = true
    · rw [if_pos hp] at hc
      exact ih c hc
    · rw [if_neg hp] at hc
      simp at hc
      rw [← hc]
      cases hx : p d
      · rfl
      · exact absurd hx hp

theorem getLast_dropWhile (p : Char → Bool) (l : List Char)
    (hne : l.dropWhile p ≠ []) : (l.dropWhile p).getLast? = l.getLast? := by
  induction l with
  | nil => rfl
  | cons d ds ih =>
    rw [List.dropWhile_cons]
    by_cases hp : p d = true
    · rw [List.dropWhile_cons, if_pos hp] at hne
      rw [if_pos hp, ih hne]
      have hds : ds ≠ [] := by
        intro hx
        rw [hx] at hne
        exact hne rfl
      cases ds with
      | nil => exact absurd rfl hds
      | cons e es => rw [List.getLast?_cons_cons]
    · rw [if_neg hp]

theorem cleanChars_idem (x : List Char)
    (h : stripMarker (cleanChars x) = cleanChars x) :
    cleanChars (cleanChars x) = cleanChars x := by
  have hy : SpacesNormal (collapseWs (stripMarker x)) := spacesNormal_collapseAux _ false
  set y := collapseWs (stripMarker x) with hy_def
  have hclean : cleanChars x = pystrip y := rfl
  have hsn : SpacesNormal (pystrip y) := by
    rw [pystrip]
    exact spacesNormal_reverse _ (spacesNormal_dropWhile _ _
      (spacesNormal_reverse _ (spacesNormal_dropWhile _ _ hy)))
  have hh : ∀ c ∈ (pystrip y).head?, isSpc c = false := by
    rw [pystrip]
    intro c hc
    rw [List.head?_reverse] at hc
    by_cases hne : (List.dropWhile isSpc (y.dropWhile isSpc).reverse) = []
    · rw [hne] at hc
      exact absurd hc (by simp)
    · rw [getLast_dropWhile isSpc _ hne, List.getLast?_reverse] at hc
      exact head_dropWhile isSpc y c hc
  have hl : ∀ c ∈ (pystrip y).getLast?, isSpc c = false := by
    rw [pystrip]
    intro c hc
    rw [List.getLast?_reverse] at hc
    exact head_dropWhile isSpc _ c hc
  show pystrip (collapseWs (stripMarker (cleanChars x))) = cleanChars x
  rw [h, hclean]
  rw [show collapseWs (pystrip y) = pystrip y from (collapseAux_fix _ hsn).1]
  exact pystrip_fix _ hh hl

/-- C3 (amended): the normalizer is idempotent on every input whose
single-pass output carries no trailing truncation marker (the
marker-removal step is then a no-op on it); only an input whose cleaned
form still ends in a marker — stacked markers, see the counterexample —
loses more text on a second pass. -/
theorem clean_article_content_idempotent_of_no_marker (s : String)
    (h : stripMarker (clean_article_content s).toList =
      (clean_article_content s).toList) :
    clean_article_content (clean_article_content s) = clean_article_content s := by
  show String.mk (cleanChars (clean_article_content s).toList) = clean_article_content s
  have h2 : (clean_article_content s).toList = cleanChars s.toList := rfl
  rw [h2] at h
  show String.mk (cleanChars (cleanChars s.toList)) = clean_article_content s
  rw [cleanChars_idem s.toList h]
  rfl

/-- C3 witness: a concrete marker-free input on which a second
normalization pass is the identity. -/
theorem clean_article_content_idempotent_witness :
    stripMarker (clean_article_content "a  b [+7 chars]").toList =
        (clean_article_content "a  b [+7 chars]").toList ∧
      clean_article_content (clean_article_content "a  b [+7 chars]") =
        clean_article_content "a  b [+7 chars]" :=
  ⟨by decide, clean_article_content_idempotent_of_no_marker "a  b [+7 chars]" (by decide)⟩

/-- C6 witness: the OpenAI provider with no api key is a configuration
error, and the pipeline run with that configuration returns failure
without writing output. -/
theorem get_analyzer_config_error_witness :
    (∃ e, get_analyzer "OpenAI" none none = Except.error e) ∧
      run_analysis_pipeline "OpenAI" none none
          (some [⟨"t", "s", "u", "p", none, some "c", none⟩])
          (fun _ _ => Except.error "boom") = (false, none) := by
  have h := get_analyzer_config_error "OpenAI" none none
  have he : ∃ e, get_analyzer "OpenAI" none none = Except.error e :=
    h.1.mpr (Or.inl ⟨Or.inl rfl, rfl⟩)
  rcases he with ⟨e, hee⟩
  exact ⟨⟨e, hee⟩,
    h.2 e (some [⟨"t", "s", "u", "p", none, some "c", none⟩])
      (fun _ _ => Except.error "boom") hee⟩

/-- C8 witness: a concrete article whose content survives normalization is
kept, with `cleaned_content` set to the normalized text. -/
theorem preprocess_filters_empty_witness :
    ∃ a s, a ∈ [(⟨"t", "s", "u", "p", some (some " x  [+3 chars]"), none, none⟩ : Article)] ∧
      a.content = some (some s) ∧ clean_article_content s ≠ "" ∧
      (⟨"t", "s", "u", "p", some (some " x  [+3 chars]"), some "x", none⟩ : Article) =
        a.withCleaned (some (clean_article_content s)) :=
  (preprocess_filters_empty
      [⟨"t", "s", "u", "p", some (some " x  [+3 chars]"), none, none⟩]).2.2
    ⟨"t", "s", "u", "p", some (some " x  [+3 chars]"), some "x", none⟩ (by decide)
